import Mathlib

/-!
Shallow embedding of the GrepDojo search tool (crates: matcher, searcher,
ignore, core) together with theorems settling the frozen specification
claims.  Rust strings are modelled as `List Char` (the `chars()` view) and
byte strings (`&[u8]`, `as_bytes()`) as `List Nat` with values below 256.
The external regex engine is an abstract parameter `re : List Nat → List
(Nat × Nat)` returning the `(start, end)` byte spans that `find_iter`
reports on a haystack; everything that the repository itself computes is
embedded executably from the source.
-/

namespace GrepDojo

/-! ## Basic string / byte utilities -/

/-- The character list of a string literal (Rust `str::chars`). -/
def strL (s : String) : List Char := s.data

/-- UTF-8 encoding of a single Unicode code point (Rust `char` encoding). -/
def utf8EncChar (c : Nat) : List Nat :=
  if c < 128 then [c]
  else if c < 2048 then [192 + c / 64, 128 + c % 64]
  else if c < 65536 then [224 + c / 4096, 128 + (c / 64) % 64, 128 + c % 64]
  else [240 + c / 262144, 128 + (c / 4096) % 64, 128 + (c / 64) % 64, 128 + c % 64]

/-- UTF-8 byte encoding of a character list (Rust `str::as_bytes`). -/
def utf8Enc (s : List Char) : List Nat := s.flatMap fun c => utf8EncChar c.toNat

/-- Byte list of an ASCII string literal (agrees with `utf8Enc ∘ strL` on ASCII). -/
def strB (s : String) : List Nat := (strL s).map Char.toNat

/-- Is `b` a UTF-8 continuation byte. -/
def isCont (b : Nat) : Bool := 128 ≤ b && b ≤ 191

/-- UTF-8 validity of a byte sequence, as checked by Rust `str::from_utf8`
(RFC 3629: rejects overlong forms, surrogates and values above U+10FFFF). -/
def utf8Valid : List Nat → Bool
  | [] => true
  | b :: rest =>
    if b < 128 then utf8Valid rest
    else if b < 194 then false
    else if b < 224 then
      match rest with
      | c :: r => isCont c && utf8Valid r
      | [] => false
    else if b = 224 then
      match rest with
      | c :: c2 :: r => (160 ≤ c && c ≤ 191) && isCont c2 && utf8Valid r
      | _ => false
    else if b < 237 then
      match rest with
      | c :: c2 :: r => isCont c && isCont c2 && utf8Valid r
      | _ => false
    else if b = 237 then
      match rest with
      | c :: c2 :: r => (128 ≤ c && c ≤ 159) && isCont c2 && utf8Valid r
      | _ => false
    else if b < 240 then
      match rest with
      | c :: c2 :: r => isCont c && isCont c2 && utf8Valid r
      | _ => false
    else if b = 240 then
      match rest with
      | c :: c2 :: c3 :: r => (144 ≤ c && c ≤ 191) && isCont c2 && isCont c3 && utf8Valid r
      | _ => false
    else if b < 244 then
      match rest with
      | c :: c2 :: c3 :: r => isCont c && isCont c2 && isCont c3 && utf8Valid r
      | _ => false
    else if b = 244 then
      match rest with
      | c :: c2 :: c3 :: r => (128 ≤ c && c ≤ 143) && isCont c2 && isCont c3 && utf8Valid r
      | _ => false
    else false

/-- Substring containment: does `needle` occur contiguously in `hay`
(Rust `str::contains` / `Finder::find_iter(..).next().is_some()`). -/
def containsSub [BEq α] (needle : List α) : List α → Bool
  | [] => needle.isEmpty
  | b :: t => needle.isPrefixOf (b :: t) || containsSub needle t

/-- Index of the first occurrence of byte `b` (Rust `memchr::memchr`). -/
def memchrL (b : Nat) : List Nat → Option Nat
  | [] => none
  | x :: xs => if x = b then some 0 else (memchrL b xs).map (· + 1)

/-- Byte slice `l[a..b]` (Rust range indexing on byte positions). -/
def listSlice (l : List Nat) (a b : Nat) : List Nat := (l.drop a).take (b - a)

/-! ## Matcher crate: pattern analysis (`crates/matcher/src/lib.rs`) -/

/-- Regex metacharacters, as `is_special_char` (matcher lib.rs line 31). -/
def isSpecialChar (c : Char) : Bool :=
  c ∈ ['^', '$', '.', '*', '+', '?', '{', '}', '[', ']', '(', ')', '|', '\\']

/-- Special bytes (`is_special_byte`) stripped before rare-byte counting
(matcher lib.rs line 36). -/
def isSpecialByte (b : Nat) : Bool :=
  b ∈ [46, 42, 43, 63, 123, 125, 91, 93, 40, 41, 124, 92, 94, 36]

/-- True (`is_pure_literal`) when the pattern has no metacharacter at all. -/
def isPureLiteral (p : List Char) : Bool := !(p.any isSpecialChar)

/-- The characters at which the prefix scan of `extract_prefix` stops
(matcher lib.rs line 82); note `^`, `$`, `}`, `]`, `)` are absent. -/
def isBreakChar (c : Char) : Bool :=
  c ∈ ['.', '*', '+', '?', '{', '[', '(', '|']

/-- The scan of `extract_prefix`: it walks the pattern, stopping at a break character; a
backslash is consumed and the following character is pushed literally. -/
def prefixExtract : List Char → List Char
  | [] => []
  | c :: rest =>
    if isBreakChar c then []
    else if c = '\\' then
      match rest with
      | [] => []
      | e :: rest2 => e :: prefixExtract rest2
    else c :: prefixExtract rest

/-- Literal extraction (`extract_literals`): the whole pattern when purely literal, otherwise the
extracted prefix when its UTF-8 byte length is at least 3. -/
def extractLiterals (p : List Char) : Option (List Char) :=
  if isPureLiteral p then some p
  else if 3 ≤ (utf8Enc (prefixExtract p)).length then some (prefixExtract p)
  else none

/-- The literal (non-special) bytes of the pattern, in order
(`select_rare_byte` step 1). -/
def literalBytes (pat : List Nat) : List Nat := pat.filter fun b => !isSpecialByte b

/-- Frequency of byte `b` among the pattern's literal bytes
(`select_rare_byte` step 2). -/
def freqOf (pat : List Nat) (b : Nat) : Nat := (literalBytes pat).count b

/-- Rust `Iterator::min_by_key`: the first element attaining the minimal
key, `none` on an empty iterator. -/
def minByKeyFirst (l : List (Nat × Nat)) : Option (Nat × Nat) :=
  match l with
  | [] => none
  | x :: xs => some (xs.foldl (fun acc y => if y.2 < acc.2 then y else acc) x)

/-- Rare-byte selection (`select_rare_byte`), parameterised by `order`: the sequence in which the
frequency `HashMap` yields its keys.  Rust's `HashMap` iteration order is
unspecified and varies between processes, so it is an explicit parameter of
the embedding; `ValidOrder` below says which orders can actually occur. -/
def selectRareByteOrd (order : List Nat) (pat : List Nat) : Option Nat :=
  if literalBytes pat = [] then none
  else
    match minByKeyFirst (order.map fun b => (b, freqOf pat b)) with
    | none => none
    | some (b, c) => if c ≤ 5 then some b else none

/-- Characterises when `order` is a possible iteration order of the frequency map built from
`pat`: each distinct literal byte exactly once. -/
def ValidOrder (order : List Nat) (pat : List Nat) : Prop :=
  order.Nodup ∧ (∀ b ∈ order, b ∈ literalBytes pat) ∧ ∀ b ∈ literalBytes pat, b ∈ order

instance (o pat) : Decidable (ValidOrder o pat) := by
  unfold ValidOrder; infer_instance

/-! ## Matcher crate: `Match` and `RegexMatcher::find_matches` -/

/-- The `Match` record (matcher lib.rs line 7): byte offsets into a line,
1-based line number, and the content string (modelled as bytes). -/
structure Match where
  start : Nat
  «end» : Nat
  line : Nat
  content : List Nat
deriving DecidableEq, Repr

/-- The `(start, end)` span of a match. -/
def spanOf (mt : Match) : Nat × Nat := (mt.start, mt.«end»)

/-- A compiled matcher: the external regex engine (abstract: the `find_iter`
spans it yields on a haystack), the extracted literal's bytes, and the rare byte. -/
structure RegexMatcher where
  re : List Nat → List (Nat × Nat)
  literal : Option (List Nat)
  rareByte : Option Nat

/-- Compilation (`RegexMatcher::new`), with the frequency-map iteration order made
explicit (see `selectRareByteOrd`). -/
def compileOrd (order : List Nat) (pat : List Char) (re : List Nat → List (Nat × Nat)) :
    RegexMatcher :=
  { re := re
    literal := (extractLiterals pat).map utf8Enc
    rareByte := selectRareByteOrd order (utf8Enc pat) }

/-- One regex span turned into a `Match` as `find_matches` does: line 0
(filled later by the searcher) and content the matched substring. -/
def spanToMatch (hay : List Nat) (se : Nat × Nat) : Match :=
  ⟨se.1, se.2, 0, listSlice hay se.1 se.2⟩

/-- The scan loop of `find_matches_with_rare_byte` (matcher lib.rs lines
152-175).  `fuel` is the termination measure `hay.length + 1 - pos`; the
position after each occurrence strictly increases, so the initial fuel
`hay.length + 1` is never exhausted. -/
def rbLoopF (re : List Nat → List (Nat × Nat)) (hay : List Nat) (rb : Nat) :
    Nat → Nat → List Match
  | 0, _ => []
  | fuel + 1, pos =>
    match memchrL rb (hay.drop pos) with
    | none => []
    | some bytePos =>
      let candidatePos := pos + bytePos
      let wstart := candidatePos - 200
      let wstop := min (candidatePos + 200) hay.length
      let candidate := listSlice hay wstart wstop
      ((re candidate).map fun se => ⟨wstart + se.1, wstart + se.2, 0, listSlice candidate se.1 se.2⟩)
        ++ rbLoopF re hay rb fuel (candidatePos + 1)

/-- Stable insertion of a match into a list sorted by `(start, end)`,
placing it after all keys less than or equal to its own. -/
def insertSpan (x : Match) : List Match → List Match
  | [] => [x]
  | y :: ys =>
    if y.start < x.start || (y.start = x.start && y.«end» ≤ x.«end») then
      y :: insertSpan x ys
    else x :: y :: ys

/-- Rust's stable `sort_by_key` on the `(start, end)` key. -/
def sortSpans (l : List Match) : List Match := l.foldl (fun acc x => insertSpan x acc) []

/-- Inner loop of `Vec::dedup_by`: drop an element equal (on `(start, end)`)
to the previously retained one. -/
def dedupAdjGo (prev : Match) : List Match → List Match
  | [] => []
  | y :: ys =>
    if y.start = prev.start && y.«end» = prev.«end» then dedupAdjGo prev ys
    else y :: dedupAdjGo y ys

/-- Rust `Vec::dedup_by` on the `(start, end)` key. -/
def dedupAdj : List Match → List Match
  | [] => []
  | x :: xs => x :: dedupAdjGo x xs

/-- The windowed scan `find_matches_with_rare_byte` (matcher lib.rs lines 147-182). -/
def findMatchesRB (re : List Nat → List (Nat × Nat)) (hay : List Nat) (rb : Nat) :
    List Match :=
  dedupAdj (sortSpans (rbLoopF re hay rb (hay.length + 1) 0))

/-- The tiered `RegexMatcher::find_matches` (matcher lib.rs lines 186-221): literal
prefilter tier, rare-byte tier, or the full engine. -/
def findMatchesT (M : RegexMatcher) (hay : List Nat) : List Match :=
  match M.literal with
  | some lit =>
    if containsSub lit hay then (M.re hay).map (spanToMatch hay) else []
  | none =>
    match M.rareByte with
    | some rb => findMatchesRB M.re hay rb
    | none => (M.re hay).map (spanToMatch hay)

/-- The tiered `RegexMatcher::is_match` (matcher lib.rs lines 223-249). -/
def isMatchT (M : RegexMatcher) (reBool : List Nat → Bool) (hay : List Nat) : Bool :=
  match M.literal with
  | some lit => if containsSub lit hay then reBool hay else false
  | none =>
    match M.rareByte with
    | some rb => if (memchrL rb hay).isSome then reBool hay else false
    | none => reBool hay

/-! ## Searcher crate (`crates/searcher/src/lib.rs`)

A file's content is a byte list; the matcher is any function
`List Nat → List Match` (in the program, `RegexMatcher::find_matches`). -/

/-- Process one line as both scanners do: skip it when it is not valid
UTF-8, otherwise run the matcher and overwrite each match's `line` and
`content` fields with the line's number and full text. -/
def emitLine (m : List Nat → List Match) (p : List Nat) (ln : Nat) : List Match :=
  if utf8Valid p then (m p).map fun mt => ⟨mt.start, mt.«end», ln, p⟩ else []

/-- The byte loop of `search_file_mmap` (searcher lib.rs lines 38-65):
`cur` is the slice `mmap[start..i]` accumulated since the last separator;
a trailing separator-less line is emitted when nonempty. -/
def mmapLoop (m : List Nat → List Match) : List Nat → Nat → List Nat → List Match
  | [], lineNum, cur => if cur = [] then [] else emitLine m cur lineNum
  | b :: rest, lineNum, cur =>
    if b = 10 then emitLine m cur lineNum ++ mmapLoop m rest (lineNum + 1) []
    else mmapLoop m rest lineNum (cur ++ [b])

/-- Model of `Searcher::search_file_mmap` on the file's content. -/
def searchFileMmap (m : List Nat → List Match) (content : List Nat) : List Match :=
  mmapLoop m content 1 []

/-- Split a byte sequence at `\n` separators into the pieces between them,
keeping the (possibly empty) final remainder. Never returns `[]`. -/
def splitNl : List Nat → List (List Nat)
  | [] => [[]]
  | b :: rest =>
    match splitNl rest with
    | [] => [[]]
    | s :: ss => if b = 10 then [] :: s :: ss else (b :: s) :: ss

/-- Emit every piece in order, numbering lines from `n` (used for the
pieces of a newline-terminated block). -/
def emitLinesFrom (m : List Nat → List Match) : List (List Nat) → Nat → List Match
  | [], _ => []
  | l :: rest, n => emitLine m l n ++ emitLinesFrom m rest (n + 1)

/-- Emit the pieces of a whole file the way the mmap scanner does: every
piece in order, except that the final piece (the bytes after the last
separator) is emitted only when nonempty. -/
def emitPieces (m : List Nat → List Match) : List (List Nat) → Nat → List Match
  | [], _ => []
  | [p], n => if p = [] then [] else emitLine m p n
  | p :: q :: ps, n => emitLine m p n ++ emitPieces m (q :: ps) (n + 1)

/-- Index of the last `\n` in a buffer (searcher lib.rs lines 99-105). -/
def lastNewlinePos : List Nat → Option Nat
  | [] => none
  | b :: rest =>
    match lastNewlinePos rest with
    | some i => some (i + 1)
    | none => if b = 10 then some 0 else none

/-- Strip one trailing carriage return (part of `str::lines`). -/
def dropFinalCR (l : List Nat) : List Nat :=
  if l.getLast? = some 13 then l.dropLast else l

/-- Rust `str::lines` on a byte view of a valid UTF-8 string: split at
`\n`, strip a `\r` immediately preceding each `\n`, don't produce a final
empty line for a trailing separator, and keep a separator-less final line
as is (including any trailing `\r`). -/
def rustLines (s : List Nat) : List (List Nat) :=
  let ps := splitNl s
  ps.dropLast.map dropFinalCR ++
    match ps.getLast? with
    | some last => if last = [] then [] else [last]
    | none => []

/-- The chunk loop of `search_file_buffered` (searcher lib.rs lines
80-128): reads 64 KiB chunks, prepends the carryover, splits at the last
separator, validates the complete-lines block as UTF-8 *as a whole* (an
invalid block is dropped and its lines are not counted), and carries the
tail over.  `fuel` is the termination measure `rest.length + 1`: every
iteration consumes at least one byte of `rest`. -/
def bufferedGoF (m : List Nat → List Match) :
    Nat → List Nat → List Nat → Nat → List Match
  | 0, _, _, _ => []
  | _ + 1, [], carryover, lineNum =>
    if carryover = [] then [] else emitLine m carryover lineNum
  | fuel + 1, b :: rest, carryover, lineNum =>
    let chunk := (b :: rest).take 65536
    let rest2 := (b :: rest).drop 65536
    let buffer := carryover ++ chunk
    match lastNewlinePos buffer with
    | some i =>
      let complete := buffer.take (i + 1)
      let carry2 := buffer.drop (i + 1)
      if utf8Valid complete then
        emitLinesFrom m (rustLines complete) lineNum ++
          bufferedGoF m fuel rest2 carry2 (lineNum + (rustLines complete).length)
      else bufferedGoF m fuel rest2 carry2 lineNum
    | none => bufferedGoF m fuel rest2 buffer lineNum

/-- Model of `Searcher::search_file_buffered` on the file's content (the reader is
modelled as returning `min(64 KiB, remaining)` bytes per call). -/
def searchFileBuffered (m : List Nat → List Match) (content : List Nat) : List Match :=
  bufferedGoF m (content.length + 1) content [] 1

/-- The constant `MMAP_THRESHOLD` (searcher lib.rs line 8). -/
def mmapThreshold : Nat := 128 * 1024

/-- Strategy choice `Searcher::should_use_mmap`: strictly larger than the threshold. -/
def shouldUseMmap (fileSize : Nat) : Bool := mmapThreshold < fileSize

/-- Model of `Searcher::search_file` (searcher lib.rs lines 145-152): the file size
equals the content length. -/
def searchFile (m : List Nat → List Match) (content : List Nat) : List Match :=
  if shouldUseMmap content.length then searchFileMmap m content
  else searchFileBuffered m content

/-! ## Ignore crate (`crates/ignore/src/lib.rs`)

Paths and rules are character lists.  The filesystem part of
`should_ignore` (locating the `.gitignore` chain and stripping the path
down to each directory) is I/O; its outcome is a root-to-leaf chain of
pairs `(rule set, path relative to that rule set's directory)`, over which
the evaluation loop of lines 155-185 runs.  That loop and `match_pattern`
are embedded in full. -/

/-- One parsed rule (ignore lib.rs `Pattern`, line 10). -/
structure IgnPattern where
  rule : List Char
  isNegation : Bool
  isDirectory : Bool
deriving DecidableEq, Repr

/-- Whitespace for `str::trim` (ASCII subset, which is what rule files use). -/
def isWsChar (c : Char) : Bool := c = ' ' || c = '\t' || c = '\r' || c = '\n'

/-- Rust `str::trim`. -/
def trimL (l : List Char) : List Char :=
  ((l.dropWhile isWsChar).reverse.dropWhile isWsChar).reverse

/-- Parse one exclusion-file line (ignore lib.rs lines 61-81): skip blank
and `#` lines, strip a leading `!` into the negation flag, and mark rules
ending in `/` as directory-scoped. -/
def parseLine (line : List Char) : Option IgnPattern :=
  let t := trimL line
  if t = [] then none
  else if t.headI = '#' then none
  else
    let (neg, rule) :=
      match t with
      | '!' :: rest => (true, trimL rest)
      | _ => (false, t)
    if rule = [] then none
    else some ⟨rule, neg, rule.getLast? = some '/'⟩

/-- Parse the lines of one exclusion file into its rule set. -/
def parseRules (ls : List (List Char)) : List IgnPattern := ls.filterMap parseLine

/-- Rust `str::trim_end_matches('/')`: drop every trailing slash. -/
def trimEndSlash (l : List Char) : List Char :=
  (l.reverse.dropWhile (· = '/')).reverse

/-- Rust `Path::file_name` on a relative path string: the final component,
`none` when there is none or it is `.` or `..`. -/
def fileName (p : List Char) : Option (List Char) :=
  match ((p.splitOn '/').filter (· ≠ [])).getLast? with
  | some c => if c = ['.'] || c = ['.', '.'] then none else some c
  | none => none

/-- Model of `Ignore::match_pattern` (ignore lib.rs lines 189-242): exact match,
directory rules, the reduced wildcard forms, bare file names, then
substring matching for rules containing a separator. -/
def matchPattern (pattern relPath : List Char) (isDir : Bool) : Bool :=
  if pattern = relPath then true
  else if isDir then
    let dirPattern := trimEndSlash pattern
    if containsSub (dirPattern ++ ['/']) relPath then true
    else if dirPattern.isPrefixOf relPath then true
    else false
  else if pattern.contains '*' then
    if pattern = ['*'] then !(relPath.contains '/')
    else
      match pattern with
      | '*' :: '.' :: ext => ext.isSuffixOf relPath
      | _ =>
        if pattern.getLast? = some '*' then pattern.dropLast.isPrefixOf relPath
        else false
  else if !(pattern.contains '/') then
    match fileName relPath with
    | some name => name = pattern
    | none => false
  else containsSub pattern relPath

/-- Apply one rule set in file order (ignore lib.rs lines 171-181): every
matching rule overwrites the state, negated rules clearing it. -/
def applyRules (rules : List IgnPattern) (dirRel : List Char) (st : Bool) : Bool :=
  rules.foldl
    (fun acc p =>
      if matchPattern p.rule dirRel p.isDirectory then
        if p.isNegation then false else true
      else acc)
    st

/-- The evaluation loop of `Ignore::should_ignore` (lines 155-185) over a
resolved root-to-leaf chain of `(rule set, path relative to that rule
set's directory)` pairs, starting from `false`. -/
def shouldIgnoreChain (chain : List (List IgnPattern × List Char)) : Bool :=
  chain.foldl (fun acc e => applyRules e.1 e.2 acc) false

/-! ## Core crate (`src/crates/core/src/lib.rs`)

Directory enumeration, file reading and printing are I/O, abstracted as:
`entries` — the file entries the walker yields; `ign` — the resolved
`should_ignore`; `search : path → Option (List Match)` — `search_file`,
with `none` for a file that cannot be opened or read.  Emitted output is
the ordered list of `(path, match)` pairs handed to the printer. -/

/-- The explicit `.git` skip applied in both traversal modes (core lib.rs
lines 125-128 and 176-179). -/
def gitSkip (p : List Char) : Bool :=
  containsSub (strL ".git/") p || containsSub (strL ".git\\") p

/-- Model of `walk_directory_single_thread` (core lib.rs lines 110-155): per file —
skip `.git`, skip ignored, skip unreadable (`Err(_) => continue`),
otherwise print every match. -/
def walkDirSingle (ign : List Char → Bool) (search : List Char → Option (List Match))
    (entries : List (List Char)) : List (List Char × Match) :=
  entries.flatMap fun p =>
    if gitSkip p then []
    else if ign p then []
    else
      match search p with
      | none => []
      | some ms => ms.map fun mt => (p, mt)

/-- Model of `walk_directory_parallel` (core lib.rs lines 159-218): phase 1 filters
the file list (`.git` skip and ignore check), phase 2 searches each file,
dropping unreadable ones (`Err(_) => return`).  Cross-file emission order
is scheduler-dependent; the embedding fixes the enumeration order. -/
def walkDirParallel (ign : List Char → Bool) (search : List Char → Option (List Match))
    (entries : List (List Char)) : List (List Char × Match) :=
  (entries.filter fun p => !gitSkip p && !ign p).flatMap fun p =>
    match search p with
    | none => []
    | some ms => ms.map fun mt => (p, mt)

/-- Model of `search_file_and_print` (core lib.rs lines 220-233): a read failure is
propagated as a contextualised fatal error. -/
def searchFileAndPrint (search : List Char → Option (List Match)) (p : List Char) :
    Except (List Char) (List (List Char × Match)) :=
  match search p with
  | none => Except.error (strL "Failed to read file: " ++ p)
  | some ms => Except.ok (ms.map fun mt => (p, mt))

/-- The existence check of `handle_single_path` (core lib.rs lines 68-70):
a missing root is a fatal, contextualised error.  The per-root work after
the check is abstracted; a root passing the check counts as processed. -/
def handleSinglePath (pathExists : List Char → Bool) (p : List Char) :
    Except (List Char) Unit :=
  if pathExists p then Except.ok ()
  else Except.error (strL "File or directory not found: " ++ p)

/-- Model of `process_paths` (core lib.rs lines 49-59): handle each root in order,
propagating the first error with `?`.  Returns the roots processed before
any failure together with the fatal error, if one occurred. -/
def processPaths (pathExists : List Char → Bool) :
    List (List Char) → List (List Char) × Option (List Char)
  | [] => ([], none)
  | p :: rest =>
    match handleSinglePath pathExists p with
    | Except.ok _ =>
      let r := processPaths pathExists rest
      (p :: r.1, r.2)
    | Except.error e => ([], some e)

/-! ## Concrete regex-engine instances and scenario data used by claims

The `regex` crate is an external collaborator; these functions give the
`find_iter` spans of specific concrete patterns, used to instantiate the
engine parameter in counterexamples. -/

/-- The `find_iter` spans of the regex `^abc`: one match at offset 0 when the
haystack starts with `abc`. -/
def reCaretAbc : List Nat → List (Nat × Nat) := fun l =>
  if [97, 98, 99].isPrefixOf l then [(0, 3)] else []

/-- The `find_iter` spans of the regex `ab|cd`: every offset where `ab` or `cd`
occurs (the inputs it is applied to have at most one occurrence). -/
def reAbCd : List Nat → List (Nat × Nat) := fun l =>
  (List.range l.length).filterMap fun i =>
    if listSlice l i (i + 2) = [97, 98] ∨ listSlice l i (i + 2) = [99, 100] then
      some (i, i + 2)
    else none

/-- The `find_iter` spans of the regex `ab` (a pure literal pattern): the inputs it
is applied to contain at most one occurrence, at offset 0. -/
def reLitAB : List Nat → List (Nat × Nat) := fun l =>
  if containsSub [97, 98] l then [(0, 2)] else []

/-- The resolved rule chain of spec Scenario 3 for a file `build/<f>`:
the root exclusion file holds `build/`, and `build/.gitignore` holds
`!keep.txt`; the two relative paths are the ones `should_ignore` computes
(relative to the root and to `build/` respectively). -/
def keepChain (f : List Char) : List (List IgnPattern × List Char) :=
  [(parseRules [strL "build/"], strL "build/" ++ f),
   (parseRules [strL "!keep.txt"], f)]

/-- Prepend the bytes accumulated in the mmap scanner's current line to
the first piece of a split (proof helper for the loop characterisation). -/
def attachHead (cur : List Nat) : List (List Nat) → List (List Nat)
  | [] => [cur]
  | s :: ss => (cur ++ s) :: ss

/-! ## General helper lemmas -/

theorem containsSub_of_isPrefixOf [BEq α] {n h : List α} (hp : n.isPrefixOf h = true) :
    containsSub n h = true := by
  cases h with
  | nil =>
    cases n with
    | nil => rfl
    | cons a t => simp [List.isPrefixOf] at hp
  | cons b t => simp [containsSub, hp]

theorem containsSub_append_self {n f : List Char} : containsSub n (n ++ f) = true :=
  containsSub_of_isPrefixOf (List.isPrefixOf_iff_prefix.mpr (List.prefix_append n f))

/-! ## Claim C10 -/

/-- Claim C10: for a rule of the form `*.<ext>` that is not
directory-scoped, `match_pattern` accepts exactly the relative paths whose
character sequence ends with `<ext>` — no preceding dot or component
boundary is required; in particular `*.log` matches both `app.log` and
`catalog`. -/
theorem c10_ext_rule_suffix :
    (∀ ext path : List Char,
        matchPattern ('*' :: '.' :: ext) path false = ext.isSuffixOf path)
    ∧ matchPattern (strL "*.log") (strL "catalog") false = true
    ∧ matchPattern (strL "*.log") (strL "app.log") false = true := by
  refine ⟨fun ext path => ?_, by decide, by decide⟩
  unfold matchPattern
  by_cases h : ('*' :: '.' :: ext) = path
  · rw [if_pos h]
    subst h
    exact (List.isSuffixOf_iff_suffix.mpr (List.suffix_append ['*', '.'] ext)).symm
  · rw [if_neg h]
    simp

/-! ## Claim C8 -/

/-- Claim C8: when a root in the argument list does not exist, the run
processes the roots before it, fails with the fatal contextualised error
at the first missing root, and does not process the roots after it. -/
theorem c8_missingRoot (pathExists : List Char → Bool) (pre post : List (List Char))
    (bad : List Char) (hpre : ∀ p ∈ pre, pathExists p = true)
    (hbad : pathExists bad = false) :
    processPaths pathExists (pre ++ bad :: post) =
      (pre, some (strL "File or directory not found: " ++ bad)) := by
  induction pre with
  | nil => simp [processPaths, handleSinglePath, hbad]
  | cons p ps ih =>
    have hp : pathExists p = true := hpre p (List.mem_cons_self p ps)
    have hrec := ih fun q hq => hpre q (List.mem_cons_of_mem p hq)
    simp [processPaths, handleSinglePath, hp, hrec]

/-- Witness for C8 at a concrete root list. -/
theorem c8_missingRoot_witness :
    processPaths (fun p => p ≠ strL "missing") [strL "a", strL "missing", strL "b"] =
      ([strL "a"], some (strL "File or directory not found: " ++ strL "missing")) :=
  c8_missingRoot _ [strL "a"] [strL "b"] (strL "missing") (by decide) (by decide)

/-! ## Claim C7 -/

/-- Claim C7: an unreadable candidate file is skipped in both the
sequential and the parallel traversal (every other file's matches are
still emitted, in order, and nothing aborts), while the same unreadable
path passed directly as a root fails with the fatal contextualised
`Failed to read file` error. -/
theorem c7_unreadable_file (ign : List Char → Bool)
    (search : List Char → Option (List Match)) (pre post : List (List Char))
    (u : List Char) (hu : search u = none) :
    walkDirSingle ign search (pre ++ u :: post)
        = walkDirSingle ign search pre ++ walkDirSingle ign search post
    ∧ walkDirParallel ign search (pre ++ u :: post)
        = walkDirParallel ign search pre ++ walkDirParallel ign search post
    ∧ searchFileAndPrint search u = Except.error (strL "Failed to read file: " ++ u) := by
  refine ⟨?_, ?_, ?_⟩
  · unfold walkDirSingle
    rw [List.flatMap_append, List.flatMap_cons, hu]
    simp
  · unfold walkDirParallel
    rw [List.filter_append, List.filter_cons]
    by_cases hf : (!gitSkip u && !ign u) = true
    · rw [if_pos hf, List.flatMap_append, List.flatMap_cons, hu]
      simp
    · rw [if_neg hf]
      simp [List.flatMap_append]
  · unfold searchFileAndPrint
    rw [hu]

/-- Witness for C7 at a concrete traversal. -/
theorem c7_unreadable_file_witness :
    walkDirSingle (fun _ => false)
        (fun p => if p = strL "bad" then none else some [⟨0, 1, 1, [120]⟩])
        ([strL "a"] ++ strL "bad" :: [strL "b"])
      = walkDirSingle (fun _ => false)
          (fun p => if p = strL "bad" then none else some [⟨0, 1, 1, [120]⟩]) [strL "a"]
        ++ walkDirSingle (fun _ => false)
          (fun p => if p = strL "bad" then none else some [⟨0, 1, 1, [120]⟩]) [strL "b"]
    ∧ walkDirParallel (fun _ => false)
        (fun p => if p = strL "bad" then none else some [⟨0, 1, 1, [120]⟩])
        ([strL "a"] ++ strL "bad" :: [strL "b"])
      = walkDirParallel (fun _ => false)
          (fun p => if p = strL "bad" then none else some [⟨0, 1, 1, [120]⟩]) [strL "a"]
        ++ walkDirParallel (fun _ => false)
          (fun p => if p = strL "bad" then none else some [⟨0, 1, 1, [120]⟩]) [strL "b"]
    ∧ searchFileAndPrint
        (fun p => if p = strL "bad" then none else some [⟨0, 1, 1, [120]⟩]) (strL "bad")
      = Except.error (strL "Failed to read file: " ++ strL "bad") :=
  c7_unreadable_file _ _ [strL "a"] [strL "b"] (strL "bad") (by decide)

/-! ## Claim C3 -/

/-- On a backslash-free pattern the prefix scan stops exactly at the first
break character (`.`, `*`, `+`, `?`, `{`, `[`, `(`, `|`). -/
theorem prefixExtract_eq_takeWhile (p : List Char) (h : '\\' ∉ p) :
    prefixExtract p = p.takeWhile fun c => !isBreakChar c := by
  induction p with
  | nil => rfl
  | cons c rest ih =>
    have hc : ¬c = '\\' := fun e => h (e ▸ List.mem_cons_self c rest)
    have hr : '\\' ∉ rest := fun hm => h (List.mem_cons_of_mem c hm)
    by_cases hb : isBreakChar c = true
    · rw [prefixExtract.eq_def]
      simp [hb, List.takeWhile_cons]
    · rw [prefixExtract.eq_def]
      simp [hb, hc, ih hr, List.takeWhile_cons]

/-- Counterexample to claim C3 as stated: on the pattern `ab^cd*` the
code extracts the hint `ab^cd`, which contains the metacharacter `^`; the
longest fixed prefix preceding the first metacharacter is only `ab`, so
the claimed description (hint = that prefix, hint has no metacharacter,
no hint when the prefix is shorter than 3) is violated. -/
theorem c3_counterexample :
    extractLiterals (strL "ab^cd*") = some (strL "ab^cd")
    ∧ (strL "ab^cd").any isSpecialChar = true
    ∧ (strL "ab^cd*").takeWhile (fun c => !isSpecialChar c) = strL "ab" := by
  decide

/-- Claim C3 (amended): a metacharacter-free pattern is extracted whole;
otherwise the hint, when present, is the prefix scan's result — the scan
stops only at `.`, `*`, `+`, `?`, `{`, `[`, `(`, `|` (not at `^`, `$`,
`}`, `]`, `)`, so the hint may contain those metacharacters) — and the
hint is produced exactly when that prefix is at least 3 bytes long
(stated here for backslash-free patterns, where the prefix is literally
the longest break-character-free prefix). -/
theorem c3_literal_extraction :
    (∀ p : List Char, isPureLiteral p = true → extractLiterals p = some p)
    ∧ (∀ p : List Char, '\\' ∉ p → isPureLiteral p = false →
        3 ≤ (utf8Enc (p.takeWhile fun c => !isBreakChar c)).length →
        extractLiterals p = some (p.takeWhile fun c => !isBreakChar c))
    ∧ (∀ p : List Char, '\\' ∉ p → isPureLiteral p = false →
        (utf8Enc (p.takeWhile fun c => !isBreakChar c)).length < 3 →
        extractLiterals p = none) := by
  refine ⟨fun p hp => ?_, fun p hb hp hlen => ?_, fun p hb hp hlen => ?_⟩
  · simp [extractLiterals, hp]
  · rw [extractLiterals, if_neg (by simp [hp]), prefixExtract_eq_takeWhile p hb,
      if_pos hlen]
  · rw [extractLiterals, if_neg (by simp [hp]), prefixExtract_eq_takeWhile p hb,
      if_neg (by omega)]

/-- Witness for C3 at concrete patterns: a pure literal, a short prefix,
and a long prefix. -/
theorem c3_literal_extraction_witness :
    extractLiterals (strL "abc") = some (strL "abc")
    ∧ extractLiterals (strL "xy*") = none
    ∧ extractLiterals (strL "wxyz|a")
        = some ((strL "wxyz|a").takeWhile fun c => !isBreakChar c) :=
  ⟨c3_literal_extraction.1 _ (by decide),
   c3_literal_extraction.2.2 _ (by decide) (by decide) (by decide),
   c3_literal_extraction.2.1 _ (by decide) (by decide) (by decide)⟩

/-! ## Claim C4 -/

/-- The root rule `build/` (directory-scoped) matches every path of the
form `build/<f>` relative to the root. -/
theorem matchPattern_build (f : List Char) :
    matchPattern (strL "build/") (strL "build/" ++ f) true = true := by
  unfold matchPattern
  by_cases he : strL "build/" = strL "build/" ++ f
  · rw [if_pos he]
  · rw [if_neg he]
    have ht : trimEndSlash (strL "build/") ++ ['/'] = strL "build/" := by decide
    simp only [ht, containsSub_append_self, if_true]

/-- The bare-filename rule `keep.txt` matches exactly the relative paths
whose final component is `keep.txt` (rule priority 1 or 4). -/
theorem matchPattern_keep (f : List Char) :
    matchPattern (strL "keep.txt") f false = true ↔ fileName f = some (strL "keep.txt") := by
  by_cases he : strL "keep.txt" = f
  · subst he
    exact ⟨fun _ => by decide, fun _ => by decide⟩
  · unfold matchPattern
    rw [if_neg he]
    have h1 : (strL "keep.txt").contains '*' = false := by decide
    have h2 : (strL "keep.txt").contains '/' = false := by decide
    simp only [h1, h2, Bool.false_eq_true, if_false, Bool.not_false, if_true]
    cases hf : fileName f with
    | none => simp [he]
    | some name => simp [he]

/-- Counterexample to claim C4 as stated: `build/sub/keep.txt` is a file
under `build/` other than `build/keep.txt`, yet `should_ignore` returns
`false` for it — the negated bare-filename rule `!keep.txt` matches any
path whose final component is `keep.txt`, not only the file directly
under `build/`. -/
theorem c4_counterexample :
    shouldIgnoreChain
        [(parseRules [strL "build/"], strL "build/sub/keep.txt"),
         (parseRules [strL "!keep.txt"], strL "sub/keep.txt")] = false
    ∧ strL "sub/keep.txt" ≠ strL "keep.txt" := by
  decide

/-- Claim C4 (amended): with root rule `build/` and `!keep.txt` in
`build`'s own exclusion file, rules are applied root-to-leaf with each
later match overwriting the state, so `should_ignore(build/keep.txt)` is
`false`, and `should_ignore` of any other file under `build/` is `true`
unless that file's final path component is also `keep.txt` (in which case
the negated rule matches it too and it is likewise un-ignored). -/
theorem c4_negation_scenario (f : List Char) :
    shouldIgnoreChain (keepChain f) =
      if fileName f = some (strL "keep.txt") then false else true := by
  have hr1 : parseRules [strL "build/"] = [⟨strL "build/", false, true⟩] := by decide
  have hr2 : parseRules [strL "!keep.txt"] = [⟨strL "keep.txt", true, false⟩] := by decide
  unfold keepChain shouldIgnoreChain
  rw [hr1, hr2]
  simp only [List.foldl_cons, List.foldl_nil]
  unfold applyRules
  simp only [List.foldl_cons, List.foldl_nil, matchPattern_build, if_true]
  by_cases hf : fileName f = some (strL "keep.txt")
  · rw [if_pos hf]
    have h := (matchPattern_keep f).mpr hf
    simp [h]
  · rw [if_neg hf]
    have h : matchPattern (strL "keep.txt") f false = false := by
      cases hq : matchPattern (strL "keep.txt") f false
      · rfl
      · exact absurd ((matchPattern_keep f).mp hq) hf
    simp [h]

/-! ## Claim C9 -/

/-- Rust's first-minimum fold: when every element is either the pair
`(b, v)` or has a strictly larger key, the fold returns `(b, v)`. -/
theorem foldl_min_unique (b v : Nat) :
    ∀ (xs : List (Nat × Nat)) (acc : Nat × Nat),
      (acc = (b, v) ∨ (v < acc.2 ∧ (b, v) ∈ xs)) →
      (∀ x ∈ xs, x = (b, v) ∨ v < x.2) →
      xs.foldl (fun a y => if y.2 < a.2 then y else a) acc = (b, v) := by
  intro xs
  induction xs with
  | nil =>
    intro acc hacc _
    rcases hacc with h | ⟨_, hmem⟩
    · simpa using h
    · cases hmem
  | cons y ys ih =>
    intro acc hacc hall
    rw [List.foldl_cons]
    rcases hall y (List.mem_cons_self y ys) with hy | hy
    · subst hy
      rcases hacc with h | ⟨hlt, _⟩
      · subst h
        apply ih
        · left
          simp
        · exact fun x hx => hall x (List.mem_cons_of_mem _ hx)
      · apply ih
        · left
          simp [hlt]
        · exact fun x hx => hall x (List.mem_cons_of_mem _ hx)
    · rcases hacc with h | ⟨hlt, hmem⟩
      · subst h
        apply ih
        · left
          simp [Nat.not_lt.mpr (Nat.le_of_lt hy)]
        · exact fun x hx => hall x (List.mem_cons_of_mem _ hx)
      · have hmem2 : (b, v) ∈ ys := by
          rcases List.mem_cons.mp hmem with h | h
          · exact absurd h.symm (by intro e; rw [e] at hy; exact Nat.lt_irrefl v hy)
          · exact h
        apply ih
        · right
          constructor
          · by_cases hc : y.2 < acc.2
            · simpa [hc] using hy
            · simpa [hc] using hlt
          · exact hmem2
        · exact fun x hx => hall x (List.mem_cons_of_mem _ hx)

/-- Rust `min_by_key` is order-independent when one pair's key is a strict
unique minimum. -/
theorem minByKeyFirst_unique {l : List (Nat × Nat)} {b v : Nat}
    (hmem : (b, v) ∈ l) (hall : ∀ x ∈ l, x = (b, v) ∨ v < x.2) :
    minByKeyFirst l = some (b, v) := by
  cases l with
  | nil => cases hmem
  | cons x xs =>
    show some (List.foldl (fun acc y => if y.2 < acc.2 then y else acc) x xs) = some (b, v)
    congr 1
    apply foldl_min_unique
    · rcases List.mem_cons.mp hmem with h | h
      · left
        exact h.symm
      · rcases hall x (List.mem_cons_self x xs) with hx | hx
        · left
          exact hx
        · right
          exact ⟨hx, h⟩
    · exact fun y hy => hall y (List.mem_cons_of_mem _ hy)

/-- When the pattern has a byte of strictly minimal frequency among its
literal bytes, `select_rare_byte` picks it under every possible hash-map
iteration order. -/
theorem selectRareByteOrd_of_unique (o pat : List Nat) (b : Nat) (ho : ValidOrder o pat)
    (hb : b ∈ literalBytes pat)
    (hmin : ∀ bq ∈ literalBytes pat, bq ≠ b → freqOf pat b < freqOf pat bq) :
    selectRareByteOrd o pat = if freqOf pat b ≤ 5 then some b else none := by
  unfold selectRareByteOrd
  have hne : ¬literalBytes pat = [] := by
    intro h
    rw [h] at hb
    cases hb
  rw [if_neg hne]
  have hmemo : b ∈ o := ho.2.2 b hb
  have hmem : (b, freqOf pat b) ∈ o.map fun x => (x, freqOf pat x) :=
    List.mem_map_of_mem _ hmemo
  have hall : ∀ x ∈ o.map fun x => (x, freqOf pat x),
      x = (b, freqOf pat b) ∨ freqOf pat b < x.2 := by
    intro x hx
    rcases List.mem_map.mp hx with ⟨x1, hx1, rfl⟩
    by_cases hq : x1 = b
    · left
      rw [hq]
    · right
      exact hmin x1 (ho.2.1 x1 hx1) hq
  rw [minByKeyFirst_unique hmem hall]

/-- Counterexample to claim C9 as stated: for the pattern `ab|cd` all four
literal bytes tie at frequency 1, so the selected rare byte depends on the
frequency map's iteration order — an order that is not part of the search
input and varies between processes.  Two runs with valid orders picking
`a` and `d` scan the two-byte file `cd` to different match lists, hence to
different printed output. -/
theorem c9_counterexample :
    ValidOrder [97, 98, 99, 100] (utf8Enc (strL "ab|cd"))
    ∧ ValidOrder [100, 99, 98, 97] (utf8Enc (strL "ab|cd"))
    ∧ searchFile (findMatchesT (compileOrd [97, 98, 99, 100] (strL "ab|cd") reAbCd)) (strB "cd")
        ≠ searchFile (findMatchesT (compileOrd [100, 99, 98, 97] (strL "ab|cd") reAbCd)) (strB "cd") := by
  decide

/-- Claim C9 (amended): repeating a search yields byte-identical output
only once the compiled acceleration hints are fixed; the rare-byte hint is
the one run-to-run degree of freedom, and it is deterministic whenever the
pattern has a unique minimum-frequency literal byte — in that case
`select_rare_byte` returns the same byte under every hash-map iteration
order (with jobs = 1 the remainder of the pipeline is a pure function of
the inputs and the hints; with ties or with a parallel worker pool the
output may differ between runs). -/
theorem c9_unique_min_deterministic (o1 o2 pat : List Nat) (b : Nat)
    (h1 : ValidOrder o1 pat) (h2 : ValidOrder o2 pat)
    (hb : b ∈ literalBytes pat)
    (hmin : ∀ bq ∈ literalBytes pat, bq ≠ b → freqOf pat b < freqOf pat bq) :
    selectRareByteOrd o1 pat = selectRareByteOrd o2 pat := by
  rw [selectRareByteOrd_of_unique o1 pat b h1 hb hmin,
    selectRareByteOrd_of_unique o2 pat b h2 hb hmin]

/-- Witness for C9 (amended) at a concrete pattern with a unique
minimum-frequency byte. -/
theorem c9_unique_min_deterministic_witness :
    selectRareByteOrd [97, 98, 99] (utf8Enc (strL "aabbc|"))
      = selectRareByteOrd [99, 98, 97] (utf8Enc (strL "aabbc|")) :=
  c9_unique_min_deterministic _ _ _ 99 (by decide) (by decide) (by decide) (by decide)

/-! ## Claim C1 -/

/-- Counterexample to claim C1 as stated, refuting both accelerated tiers.
Literal tier: for the pattern `^abc`, `extract_prefix` does not stop at
`^`, so the "literal" `^abc` is extracted; on the line `abcd` the engine
alone reports the match `(0, 3)` but the prefilter finds no occurrence of
the four bytes `^abc` and returns nothing.  Rare-byte tier: for `ab|cd`
(no literal hint; rare byte `a` under the given valid iteration order) the
line `cd` contains no `a`, so the windowed path returns nothing while the
engine alone reports `(0, 2)`. -/
theorem c1_tiers_counterexample :
    (findMatchesT (compileOrd [97, 98, 99] (strL "^abc") reCaretAbc) (strB "abcd")).map spanOf
        = []
    ∧ reCaretAbc (strB "abcd") = [(0, 3)]
    ∧ (compileOrd [97, 98, 99] (strL "^abc") reCaretAbc).literal = some (strB "^abc")
    ∧ (findMatchesT (compileOrd [97, 98, 99, 100] (strL "ab|cd") reAbCd) (strB "cd")).map spanOf
        = []
    ∧ reAbCd (strB "cd") = [(0, 2)]
    ∧ ValidOrder [97, 98, 99, 100] (utf8Enc (strL "ab|cd")) := by
  decide

/-- Claim C1 (amended): the tiers agree only under the soundness condition
the code relies on — whenever the extracted literal really is a required
substring of every matching line (which fails for patterns such as `^abc`
whose extracted "literal" contains a metacharacter), the literal-prefilter
tier returns exactly the spans the regex engine alone reports, and the
unconditional tier always does; the rare-byte tier can drop matches on
lines not containing the selected byte and is not equivalent in general. -/
theorem c1_literal_tier_equiv (re : List Nat → List (Nat × Nat)) (lit : List Nat)
    (rb : Option Nat) (hay : List Nat)
    (hreq : re hay ≠ [] → containsSub lit hay = true) :
    (findMatchesT ⟨re, some lit, rb⟩ hay).map spanOf = re hay
    ∧ (findMatchesT ⟨re, none, none⟩ hay).map spanOf = re hay := by
  have hmapspan : ∀ (l : List (Nat × Nat)),
      (l.map (spanToMatch hay)).map spanOf = l := by
    intro l
    induction l with
    | nil => rfl
    | cons x xs ih => simp [spanToMatch, spanOf, ih]
  constructor
  · show (List.map spanOf
        (if containsSub lit hay = true then (re hay).map (spanToMatch hay) else []))
      = re hay
    by_cases h : containsSub lit hay = true
    · rw [if_pos h, hmapspan]
    · have hre : re hay = [] := by
        by_contra hne
        exact h (hreq hne)
      rw [if_neg h]
      simp [hre]
  · show (List.map spanOf ((re hay).map (spanToMatch hay))) = re hay
    exact hmapspan _

/-- Witness for C1 (amended): the literal `ab` is a genuine required
substring for the engine of the pattern `ab`, and on the line `xab` both
accelerated forms reproduce the engine's spans. -/
theorem c1_literal_tier_equiv_witness :
    (findMatchesT ⟨reLitAB, some [97, 98], none⟩ (strB "xab")).map spanOf
        = reLitAB (strB "xab")
    ∧ (findMatchesT ⟨reLitAB, none, none⟩ (strB "xab")).map spanOf
        = reLitAB (strB "xab") :=
  c1_literal_tier_equiv reLitAB [97, 98] none (strB "xab") (by decide)

/-! ## Claim C2 -/

/-- Claim C2 fails on the code (code bug): on the file content `ab\r\n`
with the compiled matcher of the pure-literal pattern `ab`, the
memory-mapped path reports the line content `ab\r` — it slices between
`\n` bytes and keeps the carriage return — while the chunked-buffered path
goes through `str::lines`, which strips the `\r`, and reports `ab`.  The
two strategies therefore do not produce identical Match sequences for
identical content, contradicting the spec's requirement (§4.2). -/
theorem c2_mmap_buffered_disagree :
    searchFileMmap (findMatchesT (compileOrd [97, 98] (strL "ab") reLitAB)) [97, 98, 13, 10]
        = [⟨0, 2, 1, [97, 98, 13]⟩]
    ∧ searchFileBuffered (findMatchesT (compileOrd [97, 98] (strL "ab") reLitAB)) [97, 98, 13, 10]
        = [⟨0, 2, 1, [97, 98]⟩]
    ∧ searchFileMmap (findMatchesT (compileOrd [97, 98] (strL "ab") reLitAB)) [97, 98, 13, 10]
        ≠ searchFileBuffered (findMatchesT (compileOrd [97, 98] (strL "ab") reLitAB)) [97, 98, 13, 10] := by
  decide

/-! ## Mmap-scanner characterisation (used by claims C5 and C6) -/

theorem splitNl_ne_nil (c : List Nat) : splitNl c ≠ [] := by
  cases c with
  | nil => simp [splitNl]
  | cons b rest =>
    unfold splitNl
    cases h : splitNl rest with
    | nil => simp
    | cons s ss =>
      by_cases hb : b = 10 <;> simp [hb]

theorem splitNl_exists_cons (c : List Nat) : ∃ s ss, splitNl c = s :: ss := by
  cases h : splitNl c with
  | nil => exact absurd h (splitNl_ne_nil c)
  | cons s ss => exact ⟨s, ss, rfl⟩

theorem splitNl_cons_eq (b : Nat) (rest s : List Nat) (ss : List (List Nat))
    (h : splitNl rest = s :: ss) :
    splitNl (b :: rest) = if b = 10 then [] :: s :: ss else (b :: s) :: ss := by
  unfold splitNl
  rw [h]

theorem attachHead_nil (ps : List (List Nat)) (hps : ps ≠ []) : attachHead [] ps = ps := by
  cases ps with
  | nil => exact absurd rfl hps
  | cons s ss => simp [attachHead]

/-- The byte loop of the mmap scanner emits exactly the pieces of the
content split at separators (with the accumulated current line prepended
to the first piece), numbered consecutively, the final piece only when
nonempty. -/
theorem mmapLoop_eq (m : List Nat → List Match) :
    ∀ (c : List Nat) (n : Nat) (cur : List Nat),
      mmapLoop m c n cur = emitPieces m (attachHead cur (splitNl c)) n := by
  intro c
  induction c with
  | nil =>
    intro n cur
    simp [mmapLoop, splitNl, attachHead, emitPieces]
  | cons b rest ih =>
    intro n cur
    obtain ⟨s, ss, hss⟩ := splitNl_exists_cons rest
    by_cases hb : b = 10
    · subst hb
      have h1 : mmapLoop m (10 :: rest) n cur
          = emitLine m cur n ++ mmapLoop m rest (n + 1) [] := by
        simp [mmapLoop]
      rw [h1, splitNl_cons_eq 10 rest s ss hss, ih (n + 1) []]
      rw [attachHead_nil _ (by rw [hss]; exact List.cons_ne_nil s ss), hss]
      simp [attachHead, emitPieces]
    · have h1 : mmapLoop m (b :: rest) n cur = mmapLoop m rest n (cur ++ [b]) := by
        simp [mmapLoop, hb]
      rw [h1, splitNl_cons_eq b rest s ss hss, ih n (cur ++ [b]), hss]
      simp [attachHead, List.append_assoc, hb]

/-- The mmap scanner `search_file_mmap` emits the separator-split pieces of the content in
order, numbered from 1, skipping only an empty final piece. -/
theorem searchFileMmap_eq (m : List Nat → List Match) (c : List Nat) :
    searchFileMmap m c = emitPieces m (splitNl c) 1 := by
  unfold searchFileMmap
  rw [mmapLoop_eq, attachHead_nil _ (splitNl_ne_nil c)]

theorem splitNl_append_nl (u v : List Nat) :
    splitNl (u ++ 10 :: v) = splitNl u ++ splitNl v := by
  induction u with
  | nil =>
    obtain ⟨s, ss, hss⟩ := splitNl_exists_cons v
    rw [List.nil_append, splitNl_cons_eq 10 v s ss hss, hss]
    simp [splitNl]
  | cons a u2 ih =>
    obtain ⟨t, ts, hts⟩ := splitNl_exists_cons u2
    have hmid : splitNl (u2 ++ 10 :: v) = t :: (ts ++ splitNl v) := by
      rw [ih, hts]
      rfl
    rw [List.cons_append, splitNl_cons_eq a (u2 ++ 10 :: v) _ _ hmid,
      splitNl_cons_eq a u2 t ts hts]
    by_cases ha : a = 10 <;> simp [ha]

theorem splitNl_no_nl (v : List Nat) (hv : 10 ∉ v) : splitNl v = [v] := by
  induction v with
  | nil => rfl
  | cons b rest ih =>
    have hb : ¬b = 10 := fun e => hv (e ▸ List.mem_cons_self b rest)
    have hr : 10 ∉ rest := fun hm => hv (List.mem_cons_of_mem b hm)
    rw [splitNl_cons_eq b rest rest [] (ih hr)]
    simp [hb]

theorem splitNl_length (u : List Nat) : (splitNl u).length = u.count 10 + 1 := by
  induction u with
  | nil => simp [splitNl]
  | cons b rest ih =>
    obtain ⟨s, ss, hss⟩ := splitNl_exists_cons rest
    rw [splitNl_cons_eq b rest s ss hss]
    rw [hss] at ih
    by_cases hb : b = 10
    · subst hb
      simp only [if_pos rfl, List.length_cons] at *
      simp [List.count_cons]
      omega
    · simp only [if_neg hb, List.length_cons] at *
      simp [List.count_cons, hb]
      omega

theorem emitPieces_cons_of_ne (m : List Nat → List Match) (p : List Nat)
    (ps : List (List Nat)) (n : Nat) (hps : ps ≠ []) :
    emitPieces m (p :: ps) n = emitLine m p n ++ emitPieces m ps (n + 1) := by
  cases ps with
  | nil => exact absurd rfl hps
  | cons q qs => rfl

theorem emitPieces_append_last (m : List Nat → List Match) (v : List Nat) (hv : v ≠ []) :
    ∀ (ps : List (List Nat)) (n : Nat),
      emitPieces m (ps ++ [v]) n = emitLinesFrom m ps n ++ emitLine m v (n + ps.length) := by
  intro ps
  induction ps with
  | nil =>
    intro n
    simp [emitPieces, emitLinesFrom, hv]
  | cons p ps2 ih =>
    intro n
    rw [List.cons_append, emitPieces_cons_of_ne m p (ps2 ++ [v]) n (by simp), ih (n + 1)]
    have harith : n + 1 + ps2.length = n + (p :: ps2).length := by
      simp
      omega
    rw [← List.append_assoc, harith]
    rfl

/-! ## Claim C5 -/

/-- Claim C5: a file larger than 128 KiB is scanned through the
memory-mapped path, and when its content does not end with a separator the
final separator-less line is still scanned: every match the matcher
reports on that final line is emitted with line number equal to the number
of separators plus one (here `u` is everything before the last separator
and `v`, separator-free and nonempty, is the final line). -/
theorem c5_mmap_final_line (m : List Nat → List Match) (u v : List Nat) (mt : Match)
    (hlen : 131072 < (u ++ 10 :: v).length)
    (hv10 : 10 ∉ v) (hvne : v ≠ []) (hvalid : utf8Valid v = true)
    (hm : mt ∈ m v) :
    (⟨mt.start, mt.«end», u.count 10 + 2, v⟩ : Match) ∈ searchFile m (u ++ 10 :: v) := by
  have hsel : searchFile m (u ++ 10 :: v) = searchFileMmap m (u ++ 10 :: v) := by
    unfold searchFile shouldUseMmap mmapThreshold
    rw [if_pos (by simp only [decide_eq_true_eq]; omega)]
  rw [hsel, searchFileMmap_eq, splitNl_append_nl, splitNl_no_nl v hv10,
    emitPieces_append_last m v hvne]
  apply List.mem_append_right
  rw [splitNl_length]
  unfold emitLine
  rw [if_pos hvalid]
  have harith : 1 + (u.count 10 + 1) = u.count 10 + 2 := by omega
  rw [harith]
  exact List.mem_map_of_mem _ hm

/-- Witness for C5: a 131076-byte file of separators followed by the
unterminated final line `abc`, with a matcher matching only that line. -/
theorem c5_mmap_final_line_witness :
    (⟨0, 3, 131072 + 2, [97, 98, 99]⟩ : Match) ∈
      searchFile (fun l => if l = [97, 98, 99] then [⟨0, 3, 0, [97, 98, 99]⟩] else [])
        (List.replicate 131072 10 ++ 10 :: [97, 98, 99]) := by
  have h := c5_mmap_final_line
    (fun l => if l = [97, 98, 99] then [⟨0, 3, 0, [97, 98, 99]⟩] else [])
    (List.replicate 131072 10) [97, 98, 99] ⟨0, 3, 0, [97, 98, 99]⟩
    (by rw [List.length_append, List.length_replicate]
        simp only [List.length_cons, List.length_nil]
        omega)
    (by decide) (by decide) (by decide) (by simp)
  rw [List.count_replicate_self] at h
  exact h

/-! ## Claim C6: membership and bounds lemmas -/

theorem emitLine_mem {m : List Nat → List Match} {p : List Nat} {ln : Nat} {mt : Match}
    (h : mt ∈ emitLine m p ln) :
    utf8Valid p = true ∧ mt.line = ln ∧ mt.content = p
      ∧ ∃ mt0 ∈ m p, mt.start = mt0.start ∧ mt.«end» = mt0.«end» := by
  unfold emitLine at h
  by_cases hv : utf8Valid p = true
  · rw [if_pos hv] at h
    rcases List.mem_map.mp h with ⟨mt0, hmt0, rfl⟩
    exact ⟨hv, rfl, rfl, mt0, hmt0, rfl, rfl⟩
  · rw [if_neg hv] at h
    cases h

theorem emitPieces_mem {m : List Nat → List Match} :
    ∀ {ps : List (List Nat)} {n : Nat} {mt : Match},
      mt ∈ emitPieces m ps n →
      ∃ j, j < ps.length ∧ mt ∈ emitLine m (ps.getD j []) (n + j) := by
  intro ps
  induction ps with
  | nil =>
    intro n mt h
    cases h
  | cons p ps2 ih =>
    intro n mt h
    cases ps2 with
    | nil =>
      by_cases hp : p = []
      · simp [emitPieces, hp] at h
      · rw [show emitPieces m [p] n = emitLine m p n from by simp [emitPieces, hp]] at h
        exact ⟨0, by simp, by simpa using h⟩
    | cons q qs =>
      rw [emitPieces_cons_of_ne m p (q :: qs) n (by simp)] at h
      rcases List.mem_append.mp h with h1 | h2
      · exact ⟨0, by simp, by simpa using h1⟩
      · rcases ih h2 with ⟨j, hj, hmem⟩
        refine ⟨j + 1, by simpa using hj, ?_⟩
        rw [List.getD_cons_succ]
        have : n + (j + 1) = n + 1 + j := by omega
        rw [this]
        exact hmem

theorem mem_insertSpan {x y : Match} : ∀ {l : List Match}, x ∈ insertSpan y l → x = y ∨ x ∈ l := by
  intro l
  induction l with
  | nil =>
    intro h
    simp [insertSpan] at h
    exact Or.inl h
  | cons z zs ih =>
    intro h
    unfold insertSpan at h
    by_cases hc : (z.start < y.start || (z.start = y.start && z.«end» ≤ y.«end»)) = true
    · rw [if_pos hc] at h
      rcases List.mem_cons.mp h with h1 | h2
      · exact Or.inr (h1 ▸ List.mem_cons_self z zs)
      · rcases ih h2 with h3 | h4
        · exact Or.inl h3
        · exact Or.inr (List.mem_cons_of_mem z h4)
    · rw [if_neg hc] at h
      rcases List.mem_cons.mp h with h1 | h2
      · exact Or.inl h1
      · exact Or.inr h2

theorem mem_sortSpans_foldl :
    ∀ (l acc : List Match) (x : Match),
      x ∈ l.foldl (fun a y => insertSpan y a) acc → x ∈ acc ∨ x ∈ l := by
  intro l
  induction l with
  | nil =>
    intro acc x h
    exact Or.inl h
  | cons y ys ih =>
    intro acc x h
    rw [List.foldl_cons] at h
    rcases ih _ x h with h1 | h2
    · rcases mem_insertSpan h1 with h3 | h4
      · exact Or.inr (h3 ▸ List.mem_cons_self y ys)
      · exact Or.inl h4
    · exact Or.inr (List.mem_cons_of_mem y h2)

theorem mem_sortSpans {l : List Match} {x : Match} (h : x ∈ sortSpans l) : x ∈ l := by
  rcases mem_sortSpans_foldl l [] x h with h1 | h2
  · cases h1
  · exact h2

theorem mem_dedupAdjGo :
    ∀ {l : List Match} {prev x : Match}, x ∈ dedupAdjGo prev l → x ∈ l := by
  intro l
  induction l with
  | nil =>
    intro prev x h
    cases h
  | cons y ys ih =>
    intro prev x h
    unfold dedupAdjGo at h
    by_cases hc : (y.start = prev.start && y.«end» = prev.«end») = true
    · rw [if_pos hc] at h
      exact List.mem_cons_of_mem y (ih h)
    · rw [if_neg hc] at h
      rcases List.mem_cons.mp h with h1 | h2
      · exact h1 ▸ List.mem_cons_self y ys
      · exact List.mem_cons_of_mem y (ih h2)

theorem mem_dedupAdj {l : List Match} {x : Match} (h : x ∈ dedupAdj l) : x ∈ l := by
  cases l with
  | nil => cases h
  | cons y ys =>
    rcases List.mem_cons.mp h with h1 | h2
    · exact h1 ▸ List.mem_cons_self y ys
    · exact List.mem_cons_of_mem y (mem_dedupAdjGo h2)

theorem memchrL_lt {b : Nat} :
    ∀ {l : List Nat} {i : Nat}, memchrL b l = some i → i < l.length := by
  intro l
  induction l with
  | nil =>
    intro i h
    cases h
  | cons x xs ih =>
    intro i h
    unfold memchrL at h
    by_cases hx : x = b
    · rw [if_pos hx] at h
      cases h
      simp
    · rw [if_neg hx] at h
      cases hm : memchrL b xs with
      | none =>
        rw [hm] at h
        cases h
      | some j =>
        rw [hm] at h
        simp at h
        have := ih hm
        simp
        omega

theorem rbLoopF_succ_none {re : List Nat → List (Nat × Nat)} {hay : List Nat}
    {rb f pos : Nat} (hm : memchrL rb (hay.drop pos) = none) :
    rbLoopF re hay rb (f + 1) pos = [] := by
  unfold rbLoopF
  rw [hm]

theorem rbLoopF_succ_some {re : List Nat → List (Nat × Nat)} {hay : List Nat}
    {rb f pos bytePos : Nat} (hm : memchrL rb (hay.drop pos) = some bytePos) :
    rbLoopF re hay rb (f + 1) pos =
      ((re (listSlice hay (pos + bytePos - 200) (min (pos + bytePos + 200) hay.length))).map
        fun se => ⟨pos + bytePos - 200 + se.1, pos + bytePos - 200 + se.2, 0,
          listSlice (listSlice hay (pos + bytePos - 200) (min (pos + bytePos + 200) hay.length))
            se.1 se.2⟩)
      ++ rbLoopF re hay rb f (pos + bytePos + 1) := by
  conv_lhs => unfold rbLoopF
  rw [hm]

/-- Spans produced by the rare-byte window loop stay within the haystack:
window-local offsets are translated by the window start, and the window
never extends past the end of the line. -/
theorem rbLoopF_bounds {re : List Nat → List (Nat × Nat)} {hay : List Nat} {rb : Nat}
    (hre : ∀ l s e, (s, e) ∈ re l → s ≤ e ∧ e ≤ l.length) :
    ∀ (fuel pos : Nat) {mt : Match}, mt ∈ rbLoopF re hay rb fuel pos →
      mt.start ≤ mt.«end» ∧ mt.«end» ≤ hay.length := by
  intro fuel
  induction fuel with
  | zero =>
    intro pos mt h
    cases h
  | succ f ih =>
    intro pos mt h
    cases hm : memchrL rb (hay.drop pos) with
    | none =>
      rw [rbLoopF_succ_none hm] at h
      cases h
    | some bytePos =>
      rw [rbLoopF_succ_some hm] at h
      rcases List.mem_append.mp h with h1 | h2
      · rcases List.mem_map.mp h1 with ⟨se, hse, rfl⟩
        obtain ⟨hse1, hse2⟩ := hre _ se.1 se.2 (by simpa using hse)
        have hcp : pos + bytePos < hay.length := by
          have := memchrL_lt hm
          rw [List.length_drop] at this
          omega
        have h4 : (listSlice hay (pos + bytePos - 200)
            (min (pos + bytePos + 200) hay.length)).length
            ≤ hay.length - (pos + bytePos - 200) := by
          unfold listSlice
          rw [List.length_take, List.length_drop]
          omega
        constructor
        · show pos + bytePos - 200 + se.1 ≤ pos + bytePos - 200 + se.2
          omega
        · show pos + bytePos - 200 + se.2 ≤ hay.length
          omega
      · exact ih _ h2

/-- Every match of the tiered `find_matches` has a well-formed span within
its haystack, whichever acceleration tier was taken (the regex engine is
assumed to report spans within the haystack it is given). -/
theorem findMatchesT_bounds (re : List Nat → List (Nat × Nat)) (lit : Option (List Nat))
    (rb : Option Nat)
    (hre : ∀ l s e, (s, e) ∈ re l → s ≤ e ∧ e ≤ l.length) :
    ∀ (hay : List Nat) (mt : Match), mt ∈ findMatchesT ⟨re, lit, rb⟩ hay →
      mt.start ≤ mt.«end» ∧ mt.«end» ≤ hay.length := by
  intro hay mt h
  cases lit with
  | some l =>
    rw [show findMatchesT ⟨re, some l, rb⟩ hay
        = (if containsSub l hay then (re hay).map (spanToMatch hay) else []) from rfl] at h
    by_cases hc : containsSub l hay = true
    · rw [if_pos hc] at h
      rcases List.mem_map.mp h with ⟨se, hse, rfl⟩
      obtain ⟨h1, h2⟩ := hre hay se.1 se.2 (by simpa using hse)
      exact ⟨h1, h2⟩
    · rw [if_neg hc] at h
      cases h
  | none =>
    cases rb with
    | some b =>
      rw [show findMatchesT ⟨re, none, some b⟩ hay = findMatchesRB re hay b from rfl] at h
      exact rbLoopF_bounds hre _ _ (mem_sortSpans (mem_dedupAdj h))
    | none =>
      rw [show findMatchesT ⟨re, none, none⟩ hay = (re hay).map (spanToMatch hay) from rfl] at h
      rcases List.mem_map.mp h with ⟨se, hse, rfl⟩
      obtain ⟨h1, h2⟩ := hre hay se.1 se.2 (by simpa using hse)
      exact ⟨h1, h2⟩

/-- Claim C6: every Match produced by the scanner satisfies
`start ≤ end ≤ length(content)`, carries a 1-based line number, and its
content is the full text of the containing line (the piece of the file at
its line index) — including matches found through the rare-byte windowed
tier, whose window-local offsets are translated back correctly. -/
theorem c6_match_invariants (re : List Nat → List (Nat × Nat)) (lit : Option (List Nat))
    (rb : Option Nat) (c : List Nat)
    (hre : ∀ l s e, (s, e) ∈ re l → s ≤ e ∧ e ≤ l.length) :
    ∀ mt ∈ searchFileMmap (findMatchesT ⟨re, lit, rb⟩) c,
      mt.start ≤ mt.«end» ∧ mt.«end» ≤ mt.content.length
        ∧ 1 ≤ mt.line ∧ mt.content = (splitNl c).getD (mt.line - 1) [] := by
  intro mt h
  rw [searchFileMmap_eq] at h
  rcases emitPieces_mem h with ⟨j, hj, hmem⟩
  rcases emitLine_mem hmem with ⟨hv, hline, hcontent, mt0, hmt0, hs, he⟩
  have hb := findMatchesT_bounds re lit rb hre _ mt0 hmt0
  refine ⟨?_, ?_, ?_, ?_⟩
  · rw [hs, he]
    exact hb.1
  · rw [he, hcontent]
    exact hb.2
  · omega
  · rw [hcontent, hline]
    congr 1
    omega

/-- Witness for C6 at a concrete engine, file and match. -/
theorem c6_match_invariants_witness :
    ((⟨0, 0, 1, [97]⟩ : Match).start ≤ (⟨0, 0, 1, [97]⟩ : Match).«end»
      ∧ (⟨0, 0, 1, [97]⟩ : Match).«end» ≤ (⟨0, 0, 1, [97]⟩ : Match).content.length
      ∧ 1 ≤ (⟨0, 0, 1, [97]⟩ : Match).line
      ∧ (⟨0, 0, 1, [97]⟩ : Match).content
          = (splitNl [97]).getD ((⟨0, 0, 1, [97]⟩ : Match).line - 1) []) :=
  c6_match_invariants (fun _ => [(0, 0)]) none none [97]
    (by
      intro l s e h
      simp at h
      omega)
    ⟨0, 0, 1, [97]⟩ (by decide)

end GrepDojo
